import Mathlib

/-!
Shallow embedding of the MSL compiler core, translated from
src/msl/ast.py, src/msl/compiler.py and src/compiler/preprocesser.py:
the value model, the context chain, the AST interpreter with its
command-emission semantics, the compile entry point, and the two
preprocessor passes.  Machine floats are modelled as rationals; the
claims settled here never depend on rounding.
-/

namespace MSL

/-- A single emitted line: MinecraftCommand, ExecuteCommand or
MinecraftComment from src/msl/ast.py. -/
inductive MCmd where
  | cmd (s : String)
  | exec (s : String)
  | comment (s : String)
deriving DecidableEq

/-- MinecraftCommand.toStr renders verbatim, ExecuteCommand.toStr prepends
the literal prefix, MinecraftComment.toStr renders verbatim. -/
def MCmd.toStr : MCmd → String
  | .cmd s => s
  | .exec s => "execute " ++ s
  | .comment s => s

/-- MinecraftCommandList.toStr joins member lines with a newline. -/
def cmdListToStr (l : List MCmd) : String :=
  String.intercalate "\n" (l.map MCmd.toStr)

/-- The interpreter value domain: Python int, float (modelled as a
rational), str, bool, the NULL singleton, a single emitted line, and a
MinecraftCommandList. -/
inductive MValue where
  | int (n : Int)
  | float (q : ℚ)
  | str (s : String)
  | bool (b : Bool)
  | null
  | emit (c : MCmd)
  | cmdList (l : List MCmd)
deriving DecidableEq

/-- Model of Python float printing; no claim depends on its exact form. -/
def pyFloatRepr (q : ℚ) : String :=
  if q.den = 1 then toString q.num ++ ".0" else toString q.num ++ "/" ++ toString q.den

/-- Model of Python str() for interpreter values, as used by f-string
interpolation into emitted commands.  Object default reprs for command
objects are abstracted; no claim depends on them. -/
def pyStr : MValue → String
  | .int n => toString n
  | .float q => pyFloatRepr q
  | .str s => s
  | .bool b => if b then "True" else "False"
  | .null => "null"
  | .emit _ => "<object>"
  | .cmdList _ => "<object>"

/-- Python truthiness of interpreter values; NullValue defines no
bool hook and is therefore truthy like any plain object. -/
def truthy : MValue → Bool
  | .int n => n ≠ 0
  | .float q => q ≠ 0
  | .str s => s ≠ ""
  | .bool b => b
  | .null => true
  | .emit _ => true
  | .cmdList _ => true

/-- Association-list lookup, the model of Python dict membership and get. -/
def lookupA {α : Type} : List (String × α) → String → Option α
  | [], _ => none
  | (k, v) :: rest, n => if k = n then some v else lookupA rest n

/-- Association-list store, the model of Python dict assignment: replace
in place when the key exists, append otherwise. -/
def updateA {α : Type} : List (String × α) → String → α → List (String × α)
  | [], n, v => [(n, v)]
  | (k, w) :: rest, n, v => if k = n then (n, v) :: rest else (k, w) :: updateA rest n v

/-- One scope record of a Context: the compile-time variable map and the
score map (name to scoreboard objective and player name). -/
structure Frame where
  vars : List (String × MValue)
  scores : List (String × String × String)
deriving DecidableEq

/-- A Context chain: the head is the current context, the tail its
parent chain. -/
abbrev Ctx := List Frame

/-- The root context of a compile: empty maps, no parent. -/
def ctx0 : Ctx := [⟨[], []⟩]

/-- Context.isVariable: membership in the variable map with fallback to
the parent chain. -/
def isVariable : Ctx → String → Bool
  | [], _ => false
  | fr :: par, n => (lookupA fr.vars n).isSome || isVariable par n

/-- Context.getVariable: lookup with fallback to the parent chain. -/
def getVariable : Ctx → String → Option MValue
  | [], _ => none
  | fr :: par, n =>
    match lookupA fr.vars n with
    | some v => some v
    | none => getVariable par n

/-- Context.isScore: membership in the score map with fallback to the
parent chain. -/
def isScore : Ctx → String → Bool
  | [], _ => false
  | fr :: par, n => (lookupA fr.scores n).isSome || isScore par n

/-- Context.getScore: lookup of the (objective, player) pair with
fallback to the parent chain. -/
def getScore : Ctx → String → Option (String × String)
  | [], _ => none
  | fr :: par, n =>
    match lookupA fr.scores n with
    | some p => some p
    | none => getScore par n

/-- Mutation context.variables[name] = value on the current context. -/
def setVariable : Ctx → String → MValue → Ctx
  | [], _, _ => []
  | fr :: par, n, v => ⟨updateA fr.vars n v, fr.scores⟩ :: par

/-- Mutation context.scores[name] = [objective, player] on the current
context. -/
def addScore : Ctx → String → String → String → Ctx
  | [], _, _, _ => []
  | fr :: par, n, ob, pl => ⟨fr.vars, updateA fr.scores n (ob, pl)⟩ :: par

/-- Python exceptions that escape the interpreter unhandled. -/
inductive HostErr where
  | attributeError
  | zeroDivisionError
  | typeError
deriving DecidableEq

/-- An interpreter error: a positioned diagnostic record (message kept,
position/file/source omitted) or an unhandled host exception. -/
inductive Err where
  | nameError (msg : String)
  | valueError (msg : String)
  | host (e : HostErr)
deriving DecidableEq

/-- Python int value of an operand when int arithmetic applies
(bool is an int subclass). -/
def intOf : MValue → Option Int
  | .int n => some n
  | .bool b => some (if b then 1 else 0)
  | _ => none

/-- Numeric value of an operand as a rational when float arithmetic
applies. -/
def numQ : MValue → Option ℚ
  | .int n => some n
  | .float q => some q
  | .bool b => some (if b then 1 else 0)
  | _ => none

/-- Python string repetition for the mult operator. -/
def strRepeat (s : String) (n : Int) : String :=
  String.join (List.replicate n.toNat s)

/-- Python binary + as used unguarded by BinaryAddNode.operation. -/
def pyAdd : MValue → MValue → Except HostErr MValue
  | .str a, .str b => .ok (.str (a ++ b))
  | a, b =>
    match intOf a, intOf b with
    | some x, some y => .ok (.int (x + y))
    | _, _ =>
      match numQ a, numQ b with
      | some x, some y => .ok (.float (x + y))
      | _, _ => .error .typeError

/-- Python binary - as used unguarded by BinarySubNode.operation. -/
def pySub : MValue → MValue → Except HostErr MValue
  | a, b =>
    match intOf a, intOf b with
    | some x, some y => .ok (.int (x - y))
    | _, _ =>
      match numQ a, numQ b with
      | some x, some y => .ok (.float (x - y))
      | _, _ => .error .typeError

/-- Python binary * as used unguarded by BinaryMultNode.operation. -/
def pyMult : MValue → MValue → Except HostErr MValue
  | .str s, b =>
    match intOf b with
    | some n => .ok (.str (strRepeat s n))
    | none => .error .typeError
  | a, .str s =>
    match intOf a with
    | some n => .ok (.str (strRepeat s n))
    | none => .error .typeError
  | a, b =>
    match intOf a, intOf b with
    | some x, some y => .ok (.int (x * y))
    | _, _ =>
      match numQ a, numQ b with
      | some x, some y => .ok (.float (x * y))
      | _, _ => .error .typeError

/-- Python binary / as used unguarded by BinaryDivNode.operation: true
division, always a float on numeric operands, ZeroDivisionError on a
zero divisor. -/
def pyDiv : MValue → MValue → Except HostErr MValue
  | a, b =>
    match numQ a, numQ b with
    | some x, some y => if y = 0 then .error .zeroDivisionError else .ok (.float (x / y))
    | _, _ => .error .typeError

/-- The four arithmetic BinaryOpNode operations reachable from the
claims. -/
inductive BinOp where
  | add
  | sub
  | mult
  | div
deriving DecidableEq

/-- Dispatch of BinaryOpNode.operation. -/
def pyBinOp : BinOp → MValue → MValue → Except HostErr MValue
  | .add, a, b => pyAdd a b
  | .sub, a, b => pySub a b
  | .mult, a, b => pyMult a b
  | .div, a, b => pyDiv a b

/-- First character class of the interpolation regex, [_a-zA-Z]. -/
def isIdentStart (c : Char) : Bool :=
  c = '_' || (('a' ≤ c && c ≤ 'z') || ('A' ≤ c && c ≤ 'Z'))

/-- Continuation character class of the interpolation regex,
[_a-zA-Z0-9]. -/
def isIdentChar (c : Char) : Bool :=
  isIdentStart c || c.isDigit

/-- After the first identifier character: up to k further identifier
characters followed by a closing parenthesis, as the bounded regex
quantifier accepts. -/
def identThenClose : List Char → Nat → Bool
  | ')' :: _, _ => true
  | c :: rest, k + 1 => isIdentChar c && identThenClose rest k
  | _ :: _, 0 => false
  | [], _ => false

/-- A match of the interpolation regex (dollar, open parenthesis,
identifier of at most 32 characters, close parenthesis) starts at the
head of the character list. -/
def templAt : List Char → Bool
  | '$' :: '(' :: c :: r => isIdentStart c && identThenClose r 31
  | _ => false

/-- The interpolation regex matches somewhere in the character list. -/
def hasTemplate : List Char → Bool
  | [] => false
  | c :: rest => templAt (c :: rest) || hasTemplate rest

/-- re.search of the interpolation regex over a raw command lexeme. -/
def containsTemplate (s : String) : Bool :=
  hasTemplate s.data

/-- One clause of a group specifier, keyword and quote-stripped target,
rendered as GroupSpecNode stores it. -/
def clauseStr (c : String × String) : String :=
  c.1 ++ " " ++ c.2

/-- The string value built by GroupSpecNode and extended clause by
clause with a separating space by GroupSpecNode.append. -/
def specValue : List (String × String) → String
  | [] => ""
  | [c] => clauseStr c
  | c :: rest => clauseStr c ++ " " ++ specValue rest

/-- The element-wise transformation of GroupNode.interpret over the
body's command list: plain commands gain the prefix and a run keyword,
execute commands gain only the prefix, comments pass unchanged. -/
def groupApply (pfx : String) : List MCmd → List MCmd
  | [] => []
  | .cmd c :: rest => .exec (pfx ++ " run " ++ c) :: groupApply pfx rest
  | .exec t :: rest => .exec (pfx ++ " " ++ t) :: groupApply pfx rest
  | .comment c :: rest => .comment c :: groupApply pfx rest

/-- Output file keys: the primary output of the compile, or a sibling
file named by a nested func definition. -/
inductive FileKey where
  | primary
  | sibling (name : String)
deriving DecidableEq

/-- The AST node kinds the claims reach, as built by the parser
productions. -/
inductive AST where
  | program (body : AST)
  | block (stmts : List AST)
  | intLit (n : Int)
  | floatLit (q : ℚ)
  | strLit (s : String)
  | boolLit (b : Bool)
  | varAccess (name : String)
  | varAssign (name : String) (e : AST)
  | scoreDecl (name ob pl : String)
  | scoreInit (name ob pl : String) (e : AST)
  | mcCmd (s : String)
  | group (spec : List (String × String)) (body : AST)
  | funcDef (name : String) (stmts : List AST)
  | whileLoop (cond body : AST)
  | binOp (op : BinOp) (l r : AST)

/-- The outcome of an interpret call: a value, an error, or fuel
exhaustion (the run has not finished within the observation budget). -/
inductive Outcome where
  | ok (v : MValue)
  | err (e : Err)
  | timeout
deriving DecidableEq

/-- The result of an interpret call: outcome, the (mutated) context,
and the file writes performed during the call, in order. -/
structure InterpOut where
  res : Outcome
  ctx : Ctx
  writes : List (FileKey × String)
deriving DecidableEq

/-- The commands a block collects from one statement value: single
lines are appended, command lists are extended, other values are
skipped. -/
def valCmds : MValue → List MCmd
  | .emit c => [c]
  | .cmdList l => l
  | _ => []

/-- BlockNode.interpret's loop over its statements, with the evaluator
for one statement passed in: evaluate in order, collect emitted lines,
thread the context and writes, stop at the first error. -/
def goBlock (ev : AST → Ctx → InterpOut) :
    List AST → List MCmd → Ctx → List (FileKey × String) → InterpOut
  | [], acc, ctx, ws => ⟨.ok (.cmdList acc), ctx, ws⟩
  | s :: rest, acc, ctx, ws =>
    let r := ev s ctx
    match r.res with
    | .ok v => goBlock ev rest (acc ++ valCmds v) r.ctx (ws ++ r.writes)
    | _ => ⟨r.res, r.ctx, ws ++ r.writes⟩

/-- WhileNode.interpret's loop, with the evaluator passed in and a fuel
budget bounding the number of iterations observed: while the current
condition value is truthy, run the body, collect its lines, re-evaluate
the condition, and continue. -/
def goWhile (ev : AST → Ctx → InterpOut) :
    Nat → AST → AST → MValue → List MCmd → Ctx → List (FileKey × String) → InterpOut
  | 0, _, _, condV, acc, ctx, ws =>
    if truthy condV then ⟨.timeout, ctx, ws⟩ else ⟨.ok (.cmdList acc), ctx, ws⟩
  | k + 1, c, b, condV, acc, ctx, ws =>
    if truthy condV then
      let rb := ev b ctx
      match rb.res with
      | .ok v =>
        let rc := ev c rb.ctx
        match rc.res with
        | .ok cv => goWhile ev k c b cv (acc ++ valCmds v) rc.ctx (ws ++ rb.writes ++ rc.writes)
        | _ => ⟨rc.res, rc.ctx, ws ++ rb.writes ++ rc.writes⟩
      | _ => ⟨rb.res, rb.ctx, ws ++ rb.writes⟩
    else ⟨.ok (.cmdList acc), ctx, ws⟩

/-- The interpreter, one defining equation per node class's interpret
method, with a fuel budget consumed one unit per recursion step so that
non-termination of the source is observable as a timeout at every
budget. -/
def interp : Nat → AST → Ctx → InterpOut
  | 0, _, ctx => ⟨.timeout, ctx, []⟩
  | f + 1, node, ctx =>
    match node with
    | .program b => interp f b ctx
    | .block stmts => goBlock (fun nd cx => interp f nd cx) stmts [] ctx []
    | .intLit n => ⟨.ok (.int n), ctx, []⟩
    | .floatLit q => ⟨.ok (.float q), ctx, []⟩
    | .strLit s => ⟨.ok (.str s), ctx, []⟩
    | .boolLit b => ⟨.ok (.bool b), ctx, []⟩
    | .varAccess n =>
      if isVariable ctx n then
        ⟨.ok ((getVariable ctx n).getD .null), ctx, []⟩
      else if isScore ctx n then
        ⟨.ok (.str n), ctx, []⟩
      else
        ⟨.err (.nameError ("variable or score " ++ n ++ " not found")), ctx, []⟩
    | .varAssign n e =>
      let r := interp f e ctx
      match r.res with
      | .ok v =>
        if isScore r.ctx n then
          match (getScore r.ctx n), v with
          | some (ob, pl), .str s =>
            match getScore r.ctx s with
            | some (ob2, pl2) =>
              ⟨.ok (.emit (.cmd ("scoreboard players operation " ++ pl ++ " " ++ ob
                ++ " = " ++ pl2 ++ " " ++ ob2))), r.ctx, r.writes⟩
            | none =>
              ⟨.ok (.emit (.cmd ("scoreboard players operation " ++ pl ++ " " ++ ob
                ++ " = None None"))), r.ctx, r.writes⟩
          | some (ob, pl), _ =>
            ⟨.ok (.emit (.cmd ("scoreboard players set " ++ pl ++ " " ++ ob
              ++ " " ++ pyStr v))), r.ctx, r.writes⟩
          | none, _ =>
            ⟨.ok (.emit (.cmd ("scoreboard players set None None " ++ pyStr v))),
              r.ctx, r.writes⟩
        else
          ⟨.ok .null, setVariable r.ctx n v, r.writes⟩
      | _ => r
    | .scoreDecl n ob pl =>
      if isScore ctx n then
        ⟨.err (.nameError ("unable to redeclare score " ++ n)), ctx, []⟩
      else
        ⟨.ok .null, addScore ctx n ob pl, []⟩
    | .scoreInit n ob pl e =>
      if isScore ctx n then
        ⟨.err (.nameError ("unable to redeclare score " ++ n)), ctx, []⟩
      else
        let ctx1 := addScore ctx n ob pl
        let r := interp f e ctx1
        match r.res with
        | .ok v =>
          match getScore r.ctx n with
          | some (ob2, pl2) =>
            ⟨.ok (.emit (.cmd ("scoreboard players set " ++ pl2 ++ " " ++ ob2
              ++ " " ++ pyStr v))), r.ctx, r.writes⟩
          | none =>
            ⟨.ok (.emit (.cmd ("scoreboard players set None None " ++ pyStr v))),
              r.ctx, r.writes⟩
        | _ => r
    | .mcCmd s =>
      if containsTemplate s then
        ⟨.err (.host .attributeError), ctx, []⟩
      else
        ⟨.ok (.emit (.cmd s)), ctx, []⟩
    | .group cs body =>
      let r := interp f body ctx
      match r.res with
      | .ok (.cmdList l) =>
        ⟨.ok (.cmdList (groupApply (specValue cs) l)), r.ctx, r.writes⟩
      | .ok _ => ⟨.ok (.cmdList []), r.ctx, r.writes⟩
      | _ => r
    | .funcDef name stmts =>
      let r := goBlock (fun nd cx => interp f nd cx) stmts [] ctx []
      match r.res with
      | .ok (.cmdList l) =>
        ⟨.ok .null, r.ctx, r.writes ++ [(.sibling name, cmdListToStr l)]⟩
      | .ok _ => ⟨.ok .null, r.ctx, r.writes⟩
      | _ => r
    | .whileLoop c b =>
      let rc := interp f c ctx
      match rc.res with
      | .ok cv => goWhile (fun nd cx => interp f nd cx) f c b cv [] rc.ctx rc.writes
      | _ => rc
    | .binOp op a b =>
      let ra := interp f a ctx
      match ra.res with
      | .ok va =>
        let rb := interp f b ra.ctx
        match rb.res with
        | .ok vb =>
          match pyBinOp op va vb with
          | .ok v => ⟨.ok v, rb.ctx, ra.writes ++ rb.writes⟩
          | .error e => ⟨.err (.host e), rb.ctx, ra.writes ++ rb.writes⟩
        | _ => ⟨rb.res, rb.ctx, ra.writes ++ rb.writes⟩
      | _ => ra

/-- Rendering of the interpreter's top-level value, as Compiler.compile
serializes it; program results are always command lists. -/
def emitStr : MValue → String
  | .cmdList l => cmdListToStr l
  | _ => ""

/-- Compiler.compile from src/msl/compiler.py, from the interpretation
stage on: run the interpreter on the program AST in a fresh root
context; on error return the diagnostic and perform no further write,
on success additionally write the serialized command list to the
primary output file.  The writes already performed during
interpretation (nested func siblings) are part of the file state either
way.  A timeout yields no model (the source run has not finished). -/
def compileModel (fuel : Nat) (prog : AST) (ctx : Ctx) :
    Option (Option Err × List (FileKey × String)) :=
  let r := interp fuel prog ctx
  match r.res with
  | .err e => some (some e, r.writes)
  | .ok v => some (none, r.writes ++ [(.primary, emitStr v)])
  | .timeout => none

/-- The reserved Minecraft command keywords from
src/compiler/preprocesser.py. -/
def MINECRAFT_KEYWORDS : List String :=
  ["advancement", "attribute", "ban", "ban-ip", "banlist", "bossbar", "clear", "clone",
   "data", "datapack", "debug", "defaultgamemode", "deop", "difficult", "effect",
   "enchant", "execute", "experience", "fill", "forceload", "function", "gamemode",
   "gamerule", "give", "help", "item", "jfr", "kick", "kill", "list", "locate",
   "locatebiome", "loot", "me", "msg", "op", "pardon", "pardon-ip", "particle",
   "playsound", "publish", "recipe", "reload", "save-all", "save-off", "save-on",
   "say", "schedule", "scoreboard", "seed", "setblock", "setidletimeout",
   "setworldspawn", "spawnpoint", "spectate", "spreadplayers", "stop", "stopsound",
   "summon", "tag", "team", "teammsg", "teleport", "tell", "tellraw", "time",
   "title", "tm", "tp", "trigger", "w", "weather", "whitelist", "worldborder", "xp"]

/-- Python str.rstrip over a fixed character set. -/
def rstripSet (cs : List Char) (l : List Char) : List Char :=
  (l.reverse.dropWhile (fun c => cs.contains c)).reverse

/-- Python str.lstrip over a fixed character set. -/
def lstripSet (cs : List Char) (l : List Char) : List Char :=
  l.dropWhile (fun c => cs.contains c)

/-- The per-line stripping of add_endings: rstrip of newline and space,
then lstrip of tab and space. -/
def stripLine (l : List Char) : List Char :=
  lstripSet ['\t', ' '] (rstripSet ['\n', ' '] l)

/-- Python line.endswith over the terminator tuple of add_endings. -/
def endsTerminator (l : List Char) : Bool :=
  match l.getLast? with
  | some c => ['\x7b', '(', '\x7d', ',', ';'].contains c
  | none => false

/-- Python line.startswith over the reserved keyword tuple. -/
def startsKeyword (l : List Char) : Bool :=
  MINECRAFT_KEYWORDS.any (fun k => k.data.isPrefixOf l)

/-- The body of add_endings' loop for one line: strip, track
block-comment state, and append a semicolon to keyword lines
unconditionally and to other unterminated non-comment lines. -/
def ppStep (comment : Bool) (line : List Char) : List Char × Bool :=
  let s := stripLine line
  if s.isEmpty then (s, comment)
  else
    let c1 := if ['/', '*'].isPrefixOf s then true else comment
    let s1 :=
      if c1 then s
      else if startsKeyword s then s ++ [';']
      else if !endsTerminator s && !(['/', '/'].isPrefixOf s) then s ++ [';']
      else s
    (s1, if ['*', '/'].isSuffixOf s1 then false else c1)

/-- add_endings' loop over all lines, threading the block-comment
state. -/
def ppLines (comment : Bool) : List (List Char) → List (List Char)
  | [] => []
  | l :: rest =>
    let p := ppStep comment l
    p.1 :: ppLines p.2 rest

/-- Split on newline into all separated segments (reversed-accumulator
worker). -/
def splitAux : List Char → List Char → List (List Char)
  | [], cur => [cur.reverse]
  | c :: rest, cur =>
    if c = '\n' then cur.reverse :: splitAux rest [] else splitAux rest (c :: cur)

/-- Python str.splitlines for newline-separated text: split on newline
and drop the empty segment a trailing newline leaves. -/
def pySplitlines (l : List Char) : List (List Char) :=
  let segs := splitAux l []
  if segs.getLast? = some [] then segs.dropLast else segs

/-- Python newline.join. -/
def joinNL : List (List Char) → List Char
  | [] => []
  | [l] => l
  | l :: rest => l ++ '\n' :: joinNL rest

/-- PreProcesser.add_endings: split into lines, process each line, join
with newlines and terminate with a final newline. -/
def add_endings (source : String) : String :=
  ⟨joinNL (ppLines false (pySplitlines source.data)) ++ ['\n']⟩

/-- Python str.splitlines(keepends) for newline-separated text
(reversed-accumulator worker). -/
def splitKeepAux : List Char → List Char → List (List Char)
  | [], [] => []
  | [], cur => [cur.reverse]
  | '\n' :: rest, cur => (cur.reverse ++ ['\n']) :: splitKeepAux rest []
  | c :: rest, cur => splitKeepAux rest (c :: cur)

/-- Character class of the include-directive regex name part,
word characters and dots. -/
def identDotChar (c : Char) : Bool :=
  isIdentChar c || c = '.'

/-- A match of the include regex at the head of the character list:
the literal directive, a nonempty run of name characters, and the
closing angle bracket; returns the name and the rest of the line. -/
def matchIncl (l : List Char) : Option (String × List Char) :=
  if "include <".data.isPrefixOf l then
    let rest := l.drop 9
    match rest.dropWhile identDotChar with
    | '>' :: r =>
      if rest.takeWhile identDotChar = [] then none
      else some (⟨rest.takeWhile identDotChar⟩, r)
    | _ => none
  else none

/-- re.sub of the include regex over one line with
PreProcesser.replace as the replacement: a found file's contents
substitute the match; a missing file makes replace return None, which
re.sub rejects with a TypeError.  The fuel argument is a length bound
that never runs out on the initial call. -/
def subIncludeF (fs : List (String × String)) : Nat → List Char → Except HostErr (List Char)
  | 0, _ => .ok []
  | _ + 1, [] => .ok []
  | fu + 1, c :: rest =>
    match matchIncl (c :: rest) with
    | some (nm, r) =>
      match lookupA fs nm with
      | some content => (subIncludeF fs fu r).map (fun t => content.data ++ t)
      | none => .error .typeError
    | none => (subIncludeF fs fu rest).map (fun t => c :: t)

/-- re.sub of the include regex over one full line. -/
def subInclude (fs : List (String × String)) (l : List Char) : Except HostErr (List Char) :=
  subIncludeF fs (l.length + 1) l

/-- PreProcesser.include's per-line treatment: only lines starting with
the directive word are substituted. -/
def includeLine (fs : List (String × String)) (line : List Char) : Except HostErr (List Char) :=
  if "include".data.isPrefixOf line then subInclude fs line else .ok line

/-- PreProcesser.include's loop over the kept-ends lines, aborting at
the first host exception. -/
def includeLines (fs : List (String × String)) : List (List Char) → Except HostErr (List Char)
  | [] => .ok []
  | l :: rest =>
    match includeLine fs l with
    | .ok l2 => (includeLines fs rest).map (fun t => l2 ++ t)
    | .error e => .error e

/-- PreProcesser.include: the sibling directory is modelled as a map
from file name to contents; the include pass substitutes each directive
line and rejoins, or raises the host TypeError re.sub produces when the
replacement function returns None for a missing file. -/
def includePass (fs : List (String × String)) (source : String) : Except HostErr String :=
  (includeLines fs (splitKeepAux source.data [])).map (fun l => ⟨l⟩)

/-! Lemmas about the group distribution. -/

/-- The loop of GroupNode.interpret is the element-wise map described
by the specification. -/
theorem groupApply_eq_map (p : String) (l : List MCmd) :
    groupApply p l = l.map (fun c =>
      match c with
      | .cmd s => .exec (p ++ " run " ++ s)
      | .exec t => .exec (p ++ " " ++ t)
      | .comment s => .comment s) := by
  induction l with
  | nil => rfl
  | cons c rest ih => cases c <;> simp [groupApply, ih]

/-- Unfolding of specValue on a clause followed by more clauses. -/
theorem specValue_cons (c : String × String) (rest : List (String × String)) (h : rest ≠ []) :
    specValue (c :: rest) = clauseStr c ++ " " ++ specValue rest := by
  cases rest with
  | nil => exact absurd rfl h
  | cons b bs => rfl

/-- Concatenating two nonempty specifier clause lists joins their
string values with a single space, as GroupSpecNode.append does. -/
theorem specValue_append (A B : List (String × String)) (hA : A ≠ []) (hB : B ≠ []) :
    specValue (A ++ B) = specValue A ++ " " ++ specValue B := by
  induction A with
  | nil => exact absurd rfl hA
  | cons c rest ih =>
    rw [List.cons_append, specValue_cons c (rest ++ B) (by simp [hB])]
    cases rest with
    | nil => simp [specValue]
    | cons c2 r2 =>
      rw [ih (by simp), specValue_cons c (c2 :: r2) (by simp)]
      simp [String.append_assoc]

/-- Two nested group distributions compose into the distribution of
the space-joined prefix. -/
theorem groupApply_groupApply (p q : String) (l : List MCmd) :
    groupApply p (groupApply q l) = groupApply (p ++ " " ++ q) l := by
  induction l with
  | nil => rfl
  | cons c rest ih => cases c <;> simp [groupApply, ih, String.append_assoc]

/-! Defining equations of the interpreter, stated so that a rewrite
unfolds exactly one node without opening the evaluator closures. -/

/-- Unfolding of the interpreter on an exhausted budget. -/
theorem interp_zero (node : AST) (ctx : Ctx) :
    interp 0 node ctx = ⟨.timeout, ctx, []⟩ := rfl

/-- Unfolding of the interpreter on a program node. -/
theorem interp_succ_program (f : Nat) (b : AST) (ctx : Ctx) :
    interp (f + 1) (.program b) ctx = interp f b ctx := rfl

/-- Unfolding of the interpreter on a block node. -/
theorem interp_succ_block (f : Nat) (stmts : List AST) (ctx : Ctx) :
    interp (f + 1) (.block stmts) ctx
      = goBlock (fun nd cx => interp f nd cx) stmts [] ctx [] := rfl

/-- Unfolding of the interpreter on a group node. -/
theorem interp_succ_group (f : Nat) (cs : List (String × String)) (body : AST) (ctx : Ctx) :
    interp (f + 1) (.group cs body) ctx
      = match (interp f body ctx).res with
        | .ok (.cmdList l) =>
          ⟨.ok (.cmdList (groupApply (specValue cs) l)), (interp f body ctx).ctx,
            (interp f body ctx).writes⟩
        | .ok _ => ⟨.ok (.cmdList []), (interp f body ctx).ctx, (interp f body ctx).writes⟩
        | _ => interp f body ctx := rfl

/-- Unfolding of the interpreter on a func definition node. -/
theorem interp_succ_funcDef (f : Nat) (name : String) (stmts : List AST) (ctx : Ctx) :
    interp (f + 1) (.funcDef name stmts) ctx
      = match (goBlock (fun nd cx => interp f nd cx) stmts [] ctx []).res with
        | .ok (.cmdList l) =>
          ⟨.ok .null, (goBlock (fun nd cx => interp f nd cx) stmts [] ctx []).ctx,
            (goBlock (fun nd cx => interp f nd cx) stmts [] ctx []).writes
              ++ [(.sibling name, cmdListToStr l)]⟩
        | .ok _ =>
          ⟨.ok .null, (goBlock (fun nd cx => interp f nd cx) stmts [] ctx []).ctx,
            (goBlock (fun nd cx => interp f nd cx) stmts [] ctx []).writes⟩
        | _ => goBlock (fun nd cx => interp f nd cx) stmts [] ctx [] := rfl

/-- Unfolding of the interpreter on a while node. -/
theorem interp_succ_while (f : Nat) (c b : AST) (ctx : Ctx) :
    interp (f + 1) (.whileLoop c b) ctx
      = match (interp f c ctx).res with
        | .ok cv =>
          goWhile (fun nd cx => interp f nd cx) f c b cv [] (interp f c ctx).ctx
            (interp f c ctx).writes
        | _ => interp f c ctx := rfl

/-- Unfolding of the interpreter on a variable assignment node. -/
theorem interp_succ_varAssign (f : Nat) (n : String) (e : AST) (ctx : Ctx) :
    interp (f + 1) (.varAssign n e) ctx
      = match (interp f e ctx).res with
        | .ok v =>
          if isScore (interp f e ctx).ctx n then
            match (getScore (interp f e ctx).ctx n), v with
            | some (ob, pl), .str s =>
              match getScore (interp f e ctx).ctx s with
              | some (ob2, pl2) =>
                ⟨.ok (.emit (.cmd ("scoreboard players operation " ++ pl ++ " " ++ ob
                  ++ " = " ++ pl2 ++ " " ++ ob2))), (interp f e ctx).ctx, (interp f e ctx).writes⟩
              | none =>
                ⟨.ok (.emit (.cmd ("scoreboard players operation " ++ pl ++ " " ++ ob
                  ++ " = None None"))), (interp f e ctx).ctx, (interp f e ctx).writes⟩
            | some (ob, pl), _ =>
              ⟨.ok (.emit (.cmd ("scoreboard players set " ++ pl ++ " " ++ ob
                ++ " " ++ pyStr v))), (interp f e ctx).ctx, (interp f e ctx).writes⟩
            | none, _ =>
              ⟨.ok (.emit (.cmd ("scoreboard players set None None " ++ pyStr v))),
                (interp f e ctx).ctx, (interp f e ctx).writes⟩
          else
            ⟨.ok .null, setVariable (interp f e ctx).ctx n v, (interp f e ctx).writes⟩
        | _ => interp f e ctx := rfl

/-- Unfolding of the interpreter on a score declaration node. -/
theorem interp_succ_scoreDecl (f : Nat) (n ob pl : String) (ctx : Ctx) :
    interp (f + 1) (.scoreDecl n ob pl) ctx
      = if isScore ctx n then
          ⟨.err (.nameError ("unable to redeclare score " ++ n)), ctx, []⟩
        else
          ⟨.ok .null, addScore ctx n ob pl, []⟩ := rfl

/-- Unfolding of the interpreter on a score initialization node. -/
theorem interp_succ_scoreInit (f : Nat) (n ob pl : String) (e : AST) (ctx : Ctx) :
    interp (f + 1) (.scoreInit n ob pl e) ctx
      = if isScore ctx n then
          ⟨.err (.nameError ("unable to redeclare score " ++ n)), ctx, []⟩
        else
          match (interp f e (addScore ctx n ob pl)).res with
          | .ok v =>
            match getScore (interp f e (addScore ctx n ob pl)).ctx n with
            | some (ob2, pl2) =>
              ⟨.ok (.emit (.cmd ("scoreboard players set " ++ pl2 ++ " " ++ ob2
                ++ " " ++ pyStr v))), (interp f e (addScore ctx n ob pl)).ctx,
                (interp f e (addScore ctx n ob pl)).writes⟩
            | none =>
              ⟨.ok (.emit (.cmd ("scoreboard players set None None " ++ pyStr v))),
                (interp f e (addScore ctx n ob pl)).ctx,
                (interp f e (addScore ctx n ob pl)).writes⟩
          | _ => interp f e (addScore ctx n ob pl) := rfl

/-- Unfolding of the interpreter on a binary operator node. -/
theorem interp_succ_binOp (f : Nat) (op : BinOp) (a b : AST) (ctx : Ctx) :
    interp (f + 1) (.binOp op a b) ctx
      = match (interp f a ctx).res with
        | .ok va =>
          match (interp f b (interp f a ctx).ctx).res with
          | .ok vb =>
            match pyBinOp op va vb with
            | .ok v =>
              ⟨.ok v, (interp f b (interp f a ctx).ctx).ctx,
                (interp f a ctx).writes ++ (interp f b (interp f a ctx).ctx).writes⟩
            | .error e =>
              ⟨.err (.host e), (interp f b (interp f a ctx).ctx).ctx,
                (interp f a ctx).writes ++ (interp f b (interp f a ctx).ctx).writes⟩
          | _ =>
            ⟨(interp f b (interp f a ctx).ctx).res, (interp f b (interp f a ctx).ctx).ctx,
              (interp f a ctx).writes ++ (interp f b (interp f a ctx).ctx).writes⟩
        | _ => interp f a ctx := rfl

/-- Unfolding of the interpreter on a variable access node. -/
theorem interp_succ_varAccess (f : Nat) (n : String) (ctx : Ctx) :
    interp (f + 1) (.varAccess n) ctx
      = if isVariable ctx n then
          ⟨.ok ((getVariable ctx n).getD .null), ctx, []⟩
        else if isScore ctx n then
          ⟨.ok (.str n), ctx, []⟩
        else
          ⟨.err (.nameError ("variable or score " ++ n ++ " not found")), ctx, []⟩ := rfl

/-- Unfolding of the interpreter on a raw command node. -/
theorem interp_succ_mcCmd (f : Nat) (s : String) (ctx : Ctx) :
    interp (f + 1) (.mcCmd s) ctx
      = if containsTemplate s then
          ⟨.err (.host .attributeError), ctx, []⟩
        else
          ⟨.ok (.emit (.cmd s)), ctx, []⟩ := rfl

/-- C1: for every group whose block evaluates to a command list, the
group's interpretation maps each element of the list in order: a plain
command gains the space-joined specifier prefix and a run keyword, an
already-prefixed execute command gains only the prefix with no second
run, and a comment passes through unchanged. -/
theorem group_interpret_maps_each_element (f : Nat) (cs : List (String × String))
    (body : AST) (ctx ctxE : Ctx) (l : List MCmd) (ws : List (FileKey × String))
    (h : interp f body ctx = ⟨.ok (.cmdList l), ctxE, ws⟩) :
    interp (f + 1) (.group cs body) ctx =
      ⟨.ok (.cmdList (l.map (fun c =>
        match c with
        | .cmd s => .exec (specValue cs ++ " run " ++ s)
        | .exec t => .exec (specValue cs ++ " " ++ t)
        | .comment s => .comment s))), ctxE, ws⟩ := by
  rw [interp_succ_group, h]
  simp [groupApply_eq_map]

/-- Witness for C1 at a concrete group: the hypothesis instance and the
mapped conclusion. -/
theorem group_interpret_maps_each_element_witness :
    interp 2 (AST.block [.mcCmd "say hi"]) ctx0 = ⟨.ok (.cmdList [.cmd "say hi"]), ctx0, []⟩ ∧
    interp 3 (AST.group [("as", "@a")] (.block [.mcCmd "say hi"])) ctx0
      = ⟨.ok (.cmdList [.exec "as @a run say hi"]), ctx0, []⟩ := by
  refine ⟨by decide, ?_⟩
  have h := group_interpret_maps_each_element 2 [("as", "@a")] (.block [.mcCmd "say hi"])
    ctx0 ctx0 [.cmd "say hi"] [] (by decide)
  exact h.trans (by decide)

/-- C2: wrapping a block with two groups emits exactly what wrapping it
once with the concatenated specifier emits; nested groups extend the
prefix left-to-right. -/
theorem group_composition_associativity (f : Nat) (A B : List (String × String))
    (x : AST) (ctx ctxE : Ctx) (l : List MCmd) (ws : List (FileKey × String))
    (hA : A ≠ []) (hB : B ≠ [])
    (h : interp f x ctx = ⟨.ok (.cmdList l), ctxE, ws⟩) :
    interp (f + 3) (.group A (.block [.group B x])) ctx
      = interp (f + 1) (.group (A ++ B) x) ctx := by
  have h1 : interp (f + 1) (.group B x) ctx
      = ⟨.ok (.cmdList (groupApply (specValue B) l)), ctxE, ws⟩ := by
    rw [interp_succ_group, h]
  have h2 : interp (f + 2) (.block [.group B x]) ctx
      = ⟨.ok (.cmdList (groupApply (specValue B) l)), ctxE, ws⟩ := by
    show interp ((f + 1) + 1) (.block [.group B x]) ctx = _
    rw [interp_succ_block]
    simp [goBlock, h1, valCmds]
  have h3 : interp (f + 3) (.group A (.block [.group B x])) ctx
      = ⟨.ok (.cmdList (groupApply (specValue A) (groupApply (specValue B) l))), ctxE, ws⟩ := by
    show interp ((f + 2) + 1) (.group A (.block [.group B x])) ctx = _
    rw [interp_succ_group, h2]
  have h4 : interp (f + 1) (.group (A ++ B) x) ctx
      = ⟨.ok (.cmdList (groupApply (specValue (A ++ B)) l)), ctxE, ws⟩ := by
    rw [interp_succ_group, h]
  rw [h3, h4, groupApply_groupApply, specValue_append A B hA hB]

/-- Witness for C2 at concrete groups. -/
theorem group_composition_associativity_witness :
    interp 2 (AST.block [.mcCmd "say hi"]) ctx0 = ⟨.ok (.cmdList [.cmd "say hi"]), ctx0, []⟩ ∧
    interp 5 (AST.group [("as", "@a")] (.block [.group [("at", "@s")] (.block [.mcCmd "say hi"])])) ctx0
      = interp 3 (AST.group [("as", "@a"), ("at", "@s")] (.block [.mcCmd "say hi"])) ctx0 := by
  exact ⟨by decide,
    group_composition_associativity 2 [("as", "@a")] [("at", "@s")] (.block [.mcCmd "say hi"])
      ctx0 ctx0 [.cmd "say hi"] [] (by decide) (by decide) (by decide)⟩

/-- C3: interpolating a raw command whose lexeme contains a template
occurrence calls the nonexistent method context.get_var, so the
interpreter raises an AttributeError instead of substituting the
variable with fallback to parent scopes. -/
theorem mcCmd_interpolation_attribute_error :
    interp 1 (AST.mcCmd "say $(x)") [⟨[("x", .int 1)], []⟩]
      = ⟨.err (.host .attributeError), [⟨[("x", .int 1)], []⟩], []⟩ := by
  decide

/-- C5 counterexample: interpreting 5 / 2 yields the float 2.5, not the
integer 2 the claim states. -/
theorem int_division_counterexample :
    interp 2 (AST.binOp .div (.intLit 5) (.intLit 2)) ctx0
      = ⟨.ok (.float (5 / 2 : ℚ)), ctx0, []⟩ ∧
    (5 / 2 : ℚ) = 2.5 ∧ (MValue.float (5 / 2 : ℚ)) ≠ .int 2 := by
  refine ⟨by simp [interp, pyBinOp, pyDiv, numQ], by norm_num, by simp⟩

/-- C5 amended: compile-time division is Python true division; with a
float operand it is float division, and with two integer operands it is
likewise the exact float quotient, not integer truncation. -/
theorem division_true_division (f : Nat) (a b : Int) (q : ℚ) (ctx : Ctx)
    (hb : (b : ℚ) ≠ 0) :
    interp (f + 2) (.binOp .div (.intLit a) (.intLit b)) ctx
      = ⟨.ok (.float ((a : ℚ) / (b : ℚ))), ctx, []⟩ ∧
    interp (f + 2) (.binOp .div (.floatLit q) (.intLit b)) ctx
      = ⟨.ok (.float (q / (b : ℚ))), ctx, []⟩ := by
  constructor <;> simp [interp, pyBinOp, pyDiv, numQ, hb]

/-- Witness for the amended C5 at 5 / 2 and 1.5 / 2. -/
theorem division_true_division_witness :
    ((2 : Int) : ℚ) ≠ 0 ∧
    interp 2 (AST.binOp .div (.intLit 5) (.intLit 2)) ctx0
      = ⟨.ok (.float ((5 : ℚ) / (2 : ℚ))), ctx0, []⟩ ∧
    interp 2 (AST.binOp .div (.floatLit (3 / 2)) (.intLit 2)) ctx0
      = ⟨.ok (.float ((3 / 2 : ℚ) / (2 : ℚ))), ctx0, []⟩ := by
  have hb : ((2 : Int) : ℚ) ≠ 0 := by norm_num
  have h := division_true_division 0 5 2 (3 / 2) ctx0 hb
  exact ⟨hb, by simpa using h.1, by simpa using h.2⟩

/-- C7: the include pass substitutes the contents of an existing
sibling file for the directive, but on a missing file the replacement
function returns None and re.sub raises a TypeError; the line is not
removed and no transformed source is returned. -/
theorem include_missing_file_raises_type_error :
    includePass [("lib.msl", "say a\n")] "include <lib.msl>\n" = .ok "say a\n\n" ∧
    includePass [] "include <missing.txt>\n" = .error .typeError := by
  exact ⟨by rfl, by rfl⟩

/-- The while body used to exhibit non-termination contains no
template occurrence. -/
theorem sayhi_no_template : containsTemplate "say hi" = false := by decide

/-- The while loop of a constantly true condition consumes the entire
iteration budget without producing a result, whatever the budget. -/
theorem goWhile_true_aux (f : Nat) : ∀ (k : Nat) (acc : List MCmd) (ctx : Ctx)
    (ws : List (FileKey × String)),
    (goWhile (fun nd cx => interp f nd cx) k (.boolLit true) (.block [.mcCmd "say hi"])
      (.bool true) acc ctx ws).res = .timeout := by
  intro k
  induction k with
  | zero => intro acc ctx ws; simp [goWhile, truthy]
  | succ k ih =>
    intro acc ctx ws
    cases f with
    | zero => simp [goWhile, truthy, interp_zero]
    | succ g =>
      cases g with
      | zero =>
        simp [goWhile, truthy, interp_succ_block, goBlock, interp_zero]
      | succ i =>
        have hb : interp (i + 1 + 1) (AST.block [.mcCmd "say hi"]) ctx
            = ⟨.ok (.cmdList [.cmd "say hi"]), ctx, []⟩ := by
          rw [interp_succ_block]
          simp [goBlock, interp_succ_mcCmd, sayhi_no_template, valCmds]
        have hc : interp (i + 1 + 1) (AST.boolLit true) ctx = ⟨.ok (.bool true), ctx, []⟩ := rfl
        simp only [goWhile, truthy, hb, hc]
        exact ih _ _ _

/-- C4: WhileNode.interpret imposes no iteration cap: on a constantly
true condition the interpreter never finishes within any iteration
budget, so it neither returns a value nor the RuntimeError diagnostic
the claim requires. -/
theorem while_true_no_cap_never_finishes (fuel : Nat) (ctx : Ctx) :
    (interp fuel (.whileLoop (.boolLit true) (.block [.mcCmd "say hi"])) ctx).res
      = .timeout := by
  cases fuel with
  | zero => rfl
  | succ f =>
    cases f with
    | zero => simp [interp_succ_while, interp_zero]
    | succ g =>
      have hc : interp (g + 1) (AST.boolLit true) ctx = ⟨.ok (.bool true), ctx, []⟩ := rfl
      rw [interp_succ_while, hc]
      exact goWhile_true_aux (g + 1) (g + 1) [] ctx []

/-- C6 counterexample: a program whose interpretation fails after a
nested func definition has already written its sibling file; the
compile entry point returns the diagnostic and skips the primary
output, but the sibling emission has happened. -/
theorem compile_partial_emission_counterexample :
    compileModel 4 (.program (.block [.funcDef "helper" [.mcCmd "say inside"], .varAccess "y"])) ctx0
      = some (some (.nameError "variable or score y not found"),
          [(.sibling "helper", "say inside")]) ∧
    ([(FileKey.sibling "helper", "say inside")] : List (FileKey × String)) ≠ [] := by
  exact ⟨by decide, by simp⟩

/-- C9 counterexample: assigning a compile-time variable x and then
declaring a score x both succeed, leaving x bound as a variable and as
a score in the same scope chain. -/
theorem name_exclusivity_counterexample :
    interp 3 (.block [.varAssign "x" (.intLit 5), .scoreDecl "x" "obj" "x"]) ctx0
      = ⟨.ok (.cmdList []), [⟨[("x", .int 5)], [("x", "obj", "x")]⟩], []⟩ ∧
    isVariable [⟨[("x", .int 5)], [("x", "obj", "x")]⟩] "x" = true ∧
    isScore [⟨[("x", .int 5)], [("x", "obj", "x")]⟩] "x" = true := by
  exact ⟨by decide, by decide, by decide⟩

/-- C8 counterexample: add_endings appends a semicolon to a reserved
keyword line unconditionally, so a second run appends another one. -/
theorem add_endings_not_idempotent_counterexample :
    add_endings "say hi" = "say hi;\n" ∧
    add_endings (add_endings "say hi") = "say hi;;\n" ∧
    add_endings (add_endings "say hi") ≠ add_endings "say hi" := by
  exact ⟨by decide, by decide, by decide⟩

/-- All writes in a list name sibling files of nested func definitions,
never the primary output. -/
def SibOnly (ws : List (FileKey × String)) : Prop :=
  ∀ p ∈ ws, ∃ nm, p.1 = FileKey.sibling nm

/-- The empty write list names no primary output. -/
theorem SibOnly_nil : SibOnly [] := by
  intro p hp
  exact absurd hp (List.not_mem_nil p)

/-- Sibling-only write lists concatenate to a sibling-only write
list. -/
theorem SibOnly_append {a b : List (FileKey × String)} (ha : SibOnly a) (hb : SibOnly b) :
    SibOnly (a ++ b) := by
  intro p hp
  rcases List.mem_append.mp hp with h | h
  · exact ha p h
  · exact hb p h

/-- A block's loop only accumulates sibling-only writes when its
statement evaluator does. -/
theorem goBlock_sib (ev : AST → Ctx → InterpOut)
    (hev : ∀ nd cx, SibOnly (ev nd cx).writes) :
    ∀ (stmts : List AST) (acc : List MCmd) (ctx : Ctx) (ws : List (FileKey × String)),
      SibOnly ws → SibOnly (goBlock ev stmts acc ctx ws).writes := by
  intro stmts
  induction stmts with
  | nil => intro acc ctx ws h; exact h
  | cons s rest ih =>
    intro acc ctx ws h
    rw [goBlock]
    rcases hr : (ev s ctx).res with v | e2 | _ <;> simp only [hr]
    · exact ih _ _ _ (SibOnly_append h (hev s ctx))
    · exact SibOnly_append h (hev s ctx)
    · exact SibOnly_append h (hev s ctx)

/-- A while loop only accumulates sibling-only writes when its
evaluator does. -/
theorem goWhile_sib (ev : AST → Ctx → InterpOut)
    (hev : ∀ nd cx, SibOnly (ev nd cx).writes) :
    ∀ (k : Nat) (c b : AST) (cv : MValue) (acc : List MCmd) (ctx : Ctx)
      (ws : List (FileKey × String)),
      SibOnly ws → SibOnly (goWhile ev k c b cv acc ctx ws).writes := by
  intro k
  induction k with
  | zero =>
    intro c b cv acc ctx ws h
    rw [goWhile]
    split <;> exact h
  | succ k ih =>
    intro c b cv acc ctx ws h
    rw [goWhile]
    split
    · rcases hb : (ev b ctx).res with v | e2 | _ <;> simp only [hb]
      · rcases hc : (ev c (ev b ctx).ctx).res with cv2 | e3 | _ <;> simp only [hc]
        · exact ih _ _ _ _ _ _ (SibOnly_append (SibOnly_append h (hev b ctx)) (hev c (ev b ctx).ctx))
        · exact SibOnly_append (SibOnly_append h (hev b ctx)) (hev c (ev b ctx).ctx)
        · exact SibOnly_append (SibOnly_append h (hev b ctx)) (hev c (ev b ctx).ctx)
      · exact SibOnly_append h (hev b ctx)
      · exact SibOnly_append h (hev b ctx)
    · exact h

/-- Interpretation only ever writes sibling files of nested func
definitions; the primary output is never written during
interpretation. -/
theorem interp_sib : ∀ (fuel : Nat) (node : AST) (ctx : Ctx),
    SibOnly (interp fuel node ctx).writes := by
  intro fuel
  induction fuel with
  | zero => intro node ctx; exact SibOnly_nil
  | succ f ih =>
    intro node ctx
    cases node with
    | program b => rw [interp_succ_program]; exact ih b ctx
    | block stmts => rw [interp_succ_block]; exact goBlock_sib _ ih stmts [] ctx [] SibOnly_nil
    | intLit n => exact SibOnly_nil
    | floatLit q => exact SibOnly_nil
    | strLit s => exact SibOnly_nil
    | boolLit b => exact SibOnly_nil
    | varAccess n =>
      by_cases h1 : isVariable ctx n <;> by_cases h2 : isScore ctx n <;>
        simp [interp_succ_varAccess, h1, h2] <;> exact SibOnly_nil
    | varAssign n e =>
      rw [interp_succ_varAssign]
      rcases hr : (interp f e ctx).res with v | e2 | _ <;> simp only [hr]
      · split
        · split
          · split <;> exact ih e ctx
          · exact ih e ctx
          · exact ih e ctx
        · exact ih e ctx
      · exact ih e ctx
      · exact ih e ctx
    | scoreDecl n ob pl =>
      rw [interp_succ_scoreDecl]
      split <;> exact SibOnly_nil
    | scoreInit n ob pl e =>
      rw [interp_succ_scoreInit]
      split
      · exact SibOnly_nil
      · rcases hr : (interp f e (addScore ctx n ob pl)).res with v | e2 | _ <;> simp only [hr]
        · split <;> exact ih e (addScore ctx n ob pl)
        · exact ih e (addScore ctx n ob pl)
        · exact ih e (addScore ctx n ob pl)
    | mcCmd s =>
      by_cases h : containsTemplate s <;> simp [interp_succ_mcCmd, h] <;> exact SibOnly_nil
    | group cs body =>
      rw [interp_succ_group]
      split <;> exact ih body ctx
    | funcDef name stmts =>
      rw [interp_succ_funcDef]
      have hgb := goBlock_sib _ ih stmts [] ctx [] SibOnly_nil
      split
      · refine SibOnly_append hgb ?_
        intro p hp
        rw [List.mem_singleton] at hp
        exact ⟨name, by rw [hp]⟩
      · exact hgb
      · exact hgb
    | whileLoop c b =>
      rw [interp_succ_while]
      rcases hr : (interp f c ctx).res with cv | e2 | _ <;> simp only [hr]
      · exact goWhile_sib _ ih f c b cv [] (interp f c ctx).ctx (interp f c ctx).writes (ih c ctx)
      · exact ih c ctx
      · exact ih c ctx
    | binOp op a b =>
      rw [interp_succ_binOp]
      rcases hr : (interp f a ctx).res with va | e2 | _ <;> simp only [hr]
      · rcases hr2 : (interp f b (interp f a ctx).ctx).res with vb | e3 | _ <;> simp only [hr2]
        · rcases hop : pyBinOp op va vb with v2 | e4 <;> simp only [hop] <;>
            exact SibOnly_append (ih a ctx) (ih b (interp f a ctx).ctx)
        · exact SibOnly_append (ih a ctx) (ih b (interp f a ctx).ctx)
        · exact SibOnly_append (ih a ctx) (ih b (interp f a ctx).ctx)
      · exact ih a ctx
      · exact ih a ctx

/-- C6 amended: whenever interpretation produces a diagnostic, the
compile entry point returns that first diagnostic and the primary
output file is not written; only sibling func files written during
interpretation remain. -/
theorem compile_error_returns_diagnostic_no_primary_write (fuel : Nat) (prog : AST)
    (ctx : Ctx) (e : Err) (h : (interp fuel prog ctx).res = .err e) :
    compileModel fuel prog ctx = some (some e, (interp fuel prog ctx).writes) ∧
    ∀ s, (FileKey.primary, s) ∉ (interp fuel prog ctx).writes := by
  constructor
  · simp [compileModel, h]
  · intro s hs
    obtain ⟨nm, hnm⟩ := interp_sib fuel prog ctx (FileKey.primary, s) hs
    exact FileKey.noConfusion hnm

/-- Witness for the amended C6 at the failing two-statement program. -/
theorem compile_error_returns_diagnostic_no_primary_write_witness :
    (interp 4 (.program (.block [.funcDef "helper" [.mcCmd "say inside"], .varAccess "y"])) ctx0).res
      = .err (.nameError "variable or score y not found") ∧
    compileModel 4 (.program (.block [.funcDef "helper" [.mcCmd "say inside"], .varAccess "y"])) ctx0
      = some (some (.nameError "variable or score y not found"),
          (interp 4 (.program (.block [.funcDef "helper" [.mcCmd "say inside"], .varAccess "y"])) ctx0).writes) := by
  have h : (interp 4 (.program (.block [.funcDef "helper" [.mcCmd "say inside"], .varAccess "y"])) ctx0).res
      = .err (.nameError "variable or score y not found") := by decide
  exact ⟨h, (compile_error_returns_diagnostic_no_primary_write 4 _ ctx0 _ h).1⟩

/-- The exclusivity invariant of the specification: within one scope
chain no name is bound both as a compile-time variable and as a
score. -/
def Exclusive (c : Ctx) : Prop :=
  ∀ n, ¬(isVariable c n = true ∧ isScore c n = true)

/-- The nodes the expression grammar can produce on the right-hand
side of an assignment (of those embedded here). -/
inductive ExprOnly : AST → Prop where
  | intLit (n : Int) : ExprOnly (.intLit n)
  | floatLit (q : ℚ) : ExprOnly (.floatLit q)
  | strLit (s : String) : ExprOnly (.strLit s)
  | boolLit (b : Bool) : ExprOnly (.boolLit b)
  | varAccess (n : String) : ExprOnly (.varAccess n)
  | binOp (op : BinOp) (a b : AST) : ExprOnly a → ExprOnly b → ExprOnly (.binOp op a b)

/-- Looking a key up after a dict store finds the stored value at that
key and is unchanged elsewhere. -/
theorem lookupA_updateA {α : Type} (l : List (String × α)) (k m : String) (v : α) :
    lookupA (updateA l k v) m = if k = m then some v else lookupA l m := by
  induction l with
  | nil => simp [updateA, lookupA]
  | cons p rest ih =>
    obtain ⟨k2, w⟩ := p
    by_cases h : k2 = k
    · subst h
      by_cases h2 : k2 = m <;> simp [updateA, lookupA, h2]
    · by_cases h2 : k2 = m
      · subst h2
        have hk : ¬(k = k2) := fun hc => h hc.symm
        simp [updateA, lookupA, h, hk]
      · simp [updateA, lookupA, h, h2, ih]

/-- Storing a variable leaves every score lookup unchanged. -/
theorem isScore_setVariable (c : Ctx) (n : String) (v : MValue) (m : String) :
    isScore (setVariable c n v) m = isScore c m := by
  cases c with
  | nil => rfl
  | cons fr par => rfl

/-- Variable membership after a variable store on a nonempty chain. -/
theorem isVariable_setVariable (fr : Frame) (par : Ctx) (n m : String) (v : MValue) :
    isVariable (setVariable (fr :: par) n v) m
      = if n = m then true else isVariable (fr :: par) m := by
  show ((lookupA (updateA fr.vars n v) m).isSome || isVariable par m) = _
  rw [lookupA_updateA]
  by_cases h : n = m <;> simp [h, isVariable]

/-- Registering a score leaves every variable lookup unchanged. -/
theorem isVariable_addScore (c : Ctx) (n ob pl : String) (m : String) :
    isVariable (addScore c n ob pl) m = isVariable c m := by
  cases c with
  | nil => rfl
  | cons fr par => rfl

/-- Score membership after a score registration on a nonempty chain. -/
theorem isScore_addScore (fr : Frame) (par : Ctx) (n ob pl : String) (m : String) :
    isScore (addScore (fr :: par) n ob pl) m
      = if n = m then true else isScore (fr :: par) m := by
  show ((lookupA (updateA fr.scores n (ob, pl)) m).isSome || isScore par m) = _
  rw [lookupA_updateA]
  by_cases h : n = m <;> simp [h, isScore]

/-- Expression nodes neither mutate the context nor write files. -/
theorem expr_ctx_const : ∀ (fuel : Nat) (e : AST) (ctx : Ctx), ExprOnly e →
    (interp fuel e ctx).ctx = ctx := by
  intro fuel
  induction fuel with
  | zero => intro e ctx _; rfl
  | succ f ih =>
    intro e ctx he
    cases he with
    | intLit n => rfl
    | floatLit q => rfl
    | strLit s => rfl
    | boolLit b => rfl
    | varAccess n =>
      by_cases h1 : isVariable ctx n <;> by_cases h2 : isScore ctx n <;>
        simp [interp_succ_varAccess, h1, h2]
    | binOp op a b ha hb =>
      have hca := ih a ctx ha
      have hcb := ih b (interp f a ctx).ctx hb
      rw [interp_succ_binOp]
      rcases hr : (interp f a ctx).res with va | e2 | _ <;> simp only [hr]
      · rcases hr2 : (interp f b (interp f a ctx).ctx).res with vb | e3 | _ <;> simp only [hr2]
        · rcases hop : pyBinOp op va vb with v2 | e4 <;> simp only [hop] <;>
            exact hcb.trans hca
        · exact hcb.trans hca
        · exact hcb.trans hca
      · exact hca
      · exact hca

/-- Registering a fresh score on a name not bound as a variable keeps
the chain exclusive. -/
theorem Exclusive_addScore (ctx : Ctx) (n ob pl : String) (hx : Exclusive ctx)
    (hvn : isVariable ctx n = false) :
    Exclusive (addScore ctx n ob pl) := by
  cases ctx with
  | nil => intro m hm; rw [isVariable_addScore] at hm; exact absurd hm.1 (by simp [isVariable])
  | cons fr par =>
    intro m hm
    obtain ⟨hv, hsc⟩ := hm
    rw [isVariable_addScore] at hv
    rw [isScore_addScore] at hsc
    by_cases hnm : n = m
    · subst hnm
      rw [hvn] at hv
      exact Bool.noConfusion hv
    · rw [if_neg hnm] at hsc
      exact hx m ⟨hv, hsc⟩

/-- C9 amended: variable assignment preserves the exclusivity
invariant (assigning to a score name emits a command without binding a
variable), and score declaration and initialization preserve it when
the declared name is not already a compile-time variable; score
declaration checks only the score map, so that proviso is necessary. -/
theorem name_exclusivity_amended (f : Nat) (n ob pl : String) (e : AST) (ctx : Ctx)
    (hx : Exclusive ctx) (he : ExprOnly e) :
    Exclusive ((interp (f + 1) (.varAssign n e) ctx).ctx) ∧
    (isVariable ctx n = false → Exclusive ((interp (f + 1) (.scoreDecl n ob pl) ctx).ctx)) ∧
    (isVariable ctx n = false → Exclusive ((interp (f + 1) (.scoreInit n ob pl e) ctx).ctx)) := by
  have hec := expr_ctx_const f e ctx he
  have hgoal : Exclusive (interp f e ctx).ctx := by rw [hec]; exact hx
  refine ⟨?_, ?_, ?_⟩
  · rw [interp_succ_varAssign]
    rcases hr : (interp f e ctx).res with v | e2 | _ <;> simp only [hr]
    · by_cases hs : isScore (interp f e ctx).ctx n
      · rw [if_pos hs]
        split
        · split <;> exact hgoal
        · exact hgoal
        · exact hgoal
      · rw [if_neg hs, hec]
        rw [hec] at hs
        cases ctx with
        | nil => intro m hm; exact absurd hm.1 (by simp [setVariable, isVariable])
        | cons fr par =>
          intro m hm
          obtain ⟨hv, hsc⟩ := hm
          rw [isScore_setVariable] at hsc
          rw [isVariable_setVariable] at hv
          by_cases hnm : n = m
          · subst hnm
            exact hs (by simpa using hsc)
          · rw [if_neg hnm] at hv
            exact hx m ⟨hv, hsc⟩
    · exact hgoal
    · exact hgoal
  · intro hvn
    rw [interp_succ_scoreDecl]
    by_cases hs : isScore ctx n
    · rw [if_pos hs]; exact hx
    · rw [if_neg hs]
      exact Exclusive_addScore ctx n ob pl hx hvn
  · intro hvn
    rw [interp_succ_scoreInit]
    by_cases hs : isScore ctx n
    · rw [if_pos hs]; exact hx
    · rw [if_neg hs]
      have hx1 : Exclusive (addScore ctx n ob pl) := Exclusive_addScore ctx n ob pl hx hvn
      have hec1 := expr_ctx_const f e (addScore ctx n ob pl) he
      have hgoal1 : Exclusive (interp f e (addScore ctx n ob pl)).ctx := by
        rw [hec1]; exact hx1
      rcases hr : (interp f e (addScore ctx n ob pl)).res with v | e2 | _ <;> simp only [hr]
      · split <;> exact hgoal1
      · exact hgoal1
      · exact hgoal1

/-- Witness for the amended C9 at a fresh root context. -/
theorem name_exclusivity_amended_witness :
    Exclusive ctx0 ∧
    Exclusive ((interp 2 (.varAssign "x" (.intLit 5)) ctx0).ctx) ∧
    Exclusive ((interp 2 (.scoreDecl "x" "obj" "x") ctx0).ctx) := by
  have hx : Exclusive ctx0 := by
    intro n hn
    exact Bool.noConfusion hn.1
  have h := name_exclusivity_amended 1 "x" "obj" "x" (.intLit 5) ctx0 hx (ExprOnly.intLit 5)
  exact ⟨hx, h.1, h.2.1 (by decide)⟩

/-- C10: compile-time binary arithmetic is not total: dividing by zero
and adding an integer to a string raise unhandled host exceptions
instead of returning positioned diagnostics. -/
theorem binary_arith_unguarded_host_exception :
    interp 2 (AST.binOp .div (.intLit 1) (.intLit 0)) ctx0
      = ⟨.err (.host .zeroDivisionError), ctx0, []⟩ ∧
    interp 2 (AST.binOp .add (.intLit 1) (.strLit "a")) ctx0
      = ⟨.err (.host .typeError), ctx0, []⟩ := by
  exact ⟨by decide, by decide⟩

/-! Lemmas for the idempotence analysis of add_endings. -/

/-- The head of a dropWhile result fails the predicate. -/
theorem dropWhile_head_false {α : Type} (p : α → Bool) (l : List α) (c : α)
    (h : (l.dropWhile p).head? = some c) : p c = false := by
  have hm := List.head?_dropWhile_not p l
  rw [h] at hm
  exact hm

/-- Right-stripping is idempotent. -/
theorem rstripSet_idem (cs l : List Char) :
    rstripSet cs (rstripSet cs l) = rstripSet cs l := by
  simp [rstripSet, List.dropWhile_idempotent]

/-- Left-stripping is idempotent. -/
theorem lstripSet_idem (cs l : List Char) :
    lstripSet cs (lstripSet cs l) = lstripSet cs l := by
  simp [lstripSet, List.dropWhile_idempotent]

/-- The last character surviving a right-strip is outside the stripped
set. -/
theorem getLast?_rstripSet_false (cs l : List Char) (c : Char)
    (h : (rstripSet cs l).getLast? = some c) : cs.contains c = false := by
  rw [rstripSet, List.getLast?_reverse] at h
  exact dropWhile_head_false _ _ _ h

/-- A list whose last character is outside the set is unchanged by the
right-strip. -/
theorem rstripSet_eq_self (cs l : List Char)
    (h : ∀ c, l.getLast? = some c → cs.contains c = false) : rstripSet cs l = l := by
  cases hl : l.reverse with
  | nil =>
    have h0 : l = [] := List.reverse_eq_nil_iff.mp hl
    subst h0; rfl
  | cons a t =>
    have ha : l.getLast? = some a := by rw [← List.head?_reverse, hl]; rfl
    rw [rstripSet, hl, List.dropWhile_cons_of_neg
      (by show ¬(cs.contains a = true); rw [h a ha]; simp), ← hl, List.reverse_reverse]

/-- A nonempty suffix has the same last element as the whole list. -/
theorem suffix_getLast?_eq {α : Type} {s r : List α} (h : s <:+ r) (hne : s ≠ []) :
    r.getLast? = s.getLast? := by
  obtain ⟨t, rfl⟩ := h
  rw [List.getLast?_append]
  cases hx : s.getLast? with
  | none => exact absurd (List.getLast?_eq_none_iff.mp hx) hne
  | some x => rfl

/-- The per-line stripping of add_endings is idempotent. -/
theorem stripLine_idem (l : List Char) : stripLine (stripLine l) = stripLine l := by
  show lstripSet ['\t', ' '] (rstripSet ['\n', ' '] (stripLine l)) = stripLine l
  have h1 : rstripSet ['\n', ' '] (stripLine l) = stripLine l := by
    apply rstripSet_eq_self
    intro c hc
    by_cases hnil : stripLine l = []
    · rw [hnil] at hc; exact absurd hc (by simp)
    · have hsuf : stripLine l <:+ rstripSet ['\n', ' '] l := List.dropWhile_suffix _
      have he := suffix_getLast?_eq hsuf hnil
      exact getLast?_rstripSet_false _ _ _ (he.trans hc)
  rw [h1]
  show lstripSet ['\t', ' '] (lstripSet ['\t', ' '] (rstripSet ['\n', ' '] l)) = _
  rw [lstripSet_idem]
  rfl

/-- A line fixed by the full strip is fixed by each half. -/
theorem stripLine_parts (l : List Char) (h : stripLine l = l) :
    rstripSet ['\n', ' '] l = l ∧ lstripSet ['\t', ' '] l = l := by
  have hsuf2 : stripLine l <:+ rstripSet ['\n', ' '] l := List.dropWhile_suffix _
  have hlen2 : (stripLine l).length ≤ (rstripSet ['\n', ' '] l).length := hsuf2.length_le
  have hsufr : (rstripSet ['\n', ' '] l).reverse <:+ l.reverse := by
    show (l.reverse.dropWhile _).reverse.reverse <:+ l.reverse
    rw [List.reverse_reverse]
    exact List.dropWhile_suffix _
  have hlenr : (rstripSet ['\n', ' '] l).length ≤ l.length := by
    have h2 := hsufr.length_le
    simpa using h2
  rw [h] at hlen2
  have hreq : (rstripSet ['\n', ' '] l).length = l.length :=
    le_antisymm hlenr hlen2
  have hr : rstripSet ['\n', ' '] l = l := by
    have h3 : (rstripSet ['\n', ' '] l).reverse = l.reverse :=
      hsufr.eq_of_length (by simpa using hreq)
    have h4 := congrArg List.reverse h3
    simpa using h4
  refine ⟨hr, ?_⟩
  calc lstripSet ['\t', ' '] l = lstripSet ['\t', ' '] (rstripSet ['\n', ' '] l) := by rw [hr]
    _ = stripLine l := rfl
    _ = l := h

/-- A list whose head is outside the set is unchanged by the
left-strip. -/
theorem lstripSet_eq_self_of_head (cs l : List Char)
    (h : ∀ c, l.head? = some c → cs.contains c = false) : lstripSet cs l = l := by
  cases l with
  | nil => rfl
  | cons a t =>
    have ha := h a rfl
    exact List.dropWhile_cons_of_neg (by show ¬(cs.contains a = true); rw [ha]; simp)

/-- The head of a list fixed by the left-strip is outside the set. -/
theorem head_lstripSet_false (cs l : List Char) (hl : lstripSet cs l = l) :
    ∀ c, l.head? = some c → cs.contains c = false := by
  intro c hc
  cases l with
  | nil => simp at hc
  | cons a t =>
    have hca : c = a := by
      have : some a = some c := hc
      exact (Option.some.injEq a c ▸ this).symm
    subst hca
    by_contra hcc
    rw [Bool.not_eq_false] at hcc
    have h2 : lstripSet cs (c :: t) = t.dropWhile (fun x => cs.contains x) :=
      List.dropWhile_cons_of_pos hcc
    rw [hl] at h2
    have h3 := congrArg List.length h2
    have h4 : (t.dropWhile (fun x => cs.contains x)).length ≤ t.length :=
      (List.dropWhile_suffix _).length_le
    rw [List.length_cons] at h3
    omega

/-- Appending a semicolon to a stripped nonempty line leaves it
stripped. -/
theorem stripLine_append_semi (s : List Char) (hs : stripLine s = s) (hne : s ≠ []) :
    stripLine (s ++ [';']) = s ++ [';'] := by
  obtain ⟨hr, hl⟩ := stripLine_parts s hs
  show lstripSet ['\t', ' '] (rstripSet ['\n', ' '] (s ++ [';'])) = s ++ [';']
  rw [rstripSet_eq_self _ _ (by
    intro c hc
    rw [List.getLast?_concat] at hc
    have hcs : c = ';' := by
      have h2 : some (';' : Char) = some c := hc
      exact (Option.some.injEq _ _ ▸ h2).symm
    subst hcs
    decide)]
  apply lstripSet_eq_self_of_head
  intro c hc
  cases s with
  | nil => exact absurd rfl hne
  | cons a t =>
    have hca : c = a := by
      have h2 : some a = some c := hc
      exact (Option.some.injEq _ _ ▸ h2).symm
    subst hca
    exact head_lstripSet_false _ _ hl c rfl

/-- A semicolon appended to a line cannot create a prefix free of
semicolons. -/
theorem isPrefixOf_append_semi_false (k s : List Char) (hk : (';' : Char) ∉ k)
    (h : k.isPrefixOf s = false) : k.isPrefixOf (s ++ [';']) = false := by
  by_contra hc
  rw [Bool.not_eq_false, List.isPrefixOf_iff_prefix, List.prefix_concat_iff] at hc
  rcases hc with hc | hc
  · exact hk (hc ▸ (by simp))
  · rw [← List.isPrefixOf_iff_prefix] at hc
    rw [h] at hc
    exact Bool.noConfusion hc

/-- Reserved command keywords contain no semicolon and are
nonempty. -/
theorem keywords_no_semi : ∀ k ∈ MINECRAFT_KEYWORDS, (';' : Char) ∉ k.data := by
  decide

/-- A semicolon appended to a keyword-free line keeps it
keyword-free. -/
theorem startsKeyword_append_semi_false (s : List Char) (h : startsKeyword s = false) :
    startsKeyword (s ++ [';']) = false := by
  rw [startsKeyword, List.any_eq_false]
  intro k hkm
  rw [startsKeyword, List.any_eq_false] at h
  have hfalse : k.data.isPrefixOf s = false := by
    cases hb : k.data.isPrefixOf s with
    | false => rfl
    | true => exact absurd hb (h k hkm)
  have h3 := isPrefixOf_append_semi_false k.data s (keywords_no_semi k hkm) hfalse
  simp [h3]

/-- A line ending in an appended semicolon ends in a terminator. -/
theorem endsTerminator_append_semi (s : List Char) :
    endsTerminator (s ++ [';']) = true := by
  unfold endsTerminator
  rw [List.getLast?_concat]
  rfl

/-- A line ending in an appended semicolon does not end the block
comment marker. -/
theorem starSlash_suffix_append_semi (s : List Char) :
    (['*', '/'].isSuffixOf (s ++ [';'])) = false := by
  by_contra hc
  rw [Bool.not_eq_false, List.isSuffixOf_iff_suffix] at hc
  have h1 : (s ++ [';']).getLast? = (['*', '/'] : List Char).getLast? :=
    suffix_getLast?_eq hc (by simp)
  rw [List.getLast?_concat] at h1
  exact absurd h1 (by decide)

/-- Reprocessing a processed line from the same comment state changes
nothing, provided the line is not keyword-prefixed. -/
theorem ppStep_idem (c : Bool) (l : List Char)
    (hk : startsKeyword (stripLine l) = false) :
    ppStep c (ppStep c l).1 = ppStep c l := by
  have hss : stripLine (stripLine l) = stripLine l := stripLine_idem l
  by_cases hemp : (stripLine l).isEmpty
  · have h1 : ppStep c l = (stripLine l, c) := by simp [ppStep, hemp]
    rw [h1]
    simp [ppStep, hss, hemp]
  · by_cases hps : ['/', '*'].isPrefixOf (stripLine l)
    · have h1 : ppStep c l
          = (stripLine l, if ['*', '/'].isSuffixOf (stripLine l) then false else true) := by
        simp [ppStep, hemp, hps]
      rw [h1]
      simp [ppStep, hss, hemp, hps]
    · by_cases hc : c
      · subst hc
        have h1 : ppStep true l
            = (stripLine l, if ['*', '/'].isSuffixOf (stripLine l) then false else true) := by
          simp [ppStep, hemp, hps]
        rw [h1]
        simp [ppStep, hss, hemp, hps]
      · have hcf : c = false := by simpa using hc
        subst hcf
        by_cases hterm : (!endsTerminator (stripLine l)
            && !(['/', '/'].isPrefixOf (stripLine l))) = true
        · have hout : ppStep false l = (stripLine l ++ [';'], false) := by
            simp [ppStep, hemp, hps, hk, hterm, ite_self]
          rw [hout]
          have hsne : stripLine l ≠ [] := by simpa [List.isEmpty_iff] using hemp
          have hstr2 : stripLine (stripLine l ++ [';']) = stripLine l ++ [';'] :=
            stripLine_append_semi _ hss hsne
          have hemp2 : (stripLine l ++ [';']).isEmpty = false := by
            cases stripLine l <;> rfl
          have hpsf : (['/', '*'] : List Char).isPrefixOf (stripLine l) = false := by
            cases hb : (['/', '*'] : List Char).isPrefixOf (stripLine l) with
            | false => rfl
            | true => exact absurd hb hps
          have hps2 : (['/', '*'] : List Char).isPrefixOf (stripLine l ++ [';']) = false :=
            isPrefixOf_append_semi_false _ _ (by decide) hpsf
          have hk2 : startsKeyword (stripLine l ++ [';']) = false :=
            startsKeyword_append_semi_false _ hk
          have hterm2 : endsTerminator (stripLine l ++ [';']) = true :=
            endsTerminator_append_semi _
          have hsf2 : (['*', '/'].isSuffixOf (stripLine l ++ [';'])) = false :=
            starSlash_suffix_append_semi _
          simp [ppStep, hstr2, hemp2, hps2, hk2, hterm2, hsf2]
        · have hout : ppStep false l = (stripLine l, false) := by
            simp [ppStep, hemp, hps, hk, hterm, ite_self]
          rw [hout]
          simp [ppStep, hss, hemp, hps, hk, hterm, ite_self]

/-- Reprocessing a whole processed line list from the same starting
state changes nothing, provided no line is keyword-prefixed. -/
theorem ppLines_idem (c : Bool) (ls : List (List Char))
    (hk : ∀ l ∈ ls, startsKeyword (stripLine l) = false) :
    ppLines c (ppLines c ls) = ppLines c ls := by
  induction ls generalizing c with
  | nil => rfl
  | cons l rest ih =>
    have hkl : startsKeyword (stripLine l) = false := hk l (by simp)
    have hkr : ∀ l2 ∈ rest, startsKeyword (stripLine l2) = false :=
      fun l2 h2 => hk l2 (by simp [h2])
    have e1 : ppLines c (l :: rest) = (ppStep c l).1 :: ppLines (ppStep c l).2 rest := rfl
    rw [e1]
    have e2 : ppLines c ((ppStep c l).1 :: ppLines (ppStep c l).2 rest)
        = (ppStep c (ppStep c l).1).1
          :: ppLines (ppStep c (ppStep c l).1).2 (ppLines (ppStep c l).2 rest) := rfl
    rw [e2, ppStep_idem c l hkl]
    exact congrArg _ (ih (ppStep c l).2 hkr)

/-- Segments produced by the newline split contain no newline. -/
theorem splitAux_noNL : ∀ (l cur : List Char), ('\n' : Char) ∉ cur →
    ∀ seg ∈ splitAux l cur, ('\n' : Char) ∉ seg := by
  intro l
  induction l with
  | nil =>
    intro cur hcur seg hseg
    simp only [splitAux, List.mem_singleton] at hseg
    subst hseg
    simpa using hcur
  | cons ch rest ih =>
    intro cur hcur seg hseg
    by_cases hch : ch = '\n'
    · subst hch
      rw [splitAux, if_pos rfl, List.mem_cons] at hseg
      rcases hseg with rfl | hseg
      · simpa using hcur
      · exact ih [] (by simp) seg hseg
    · rw [splitAux, if_neg hch] at hseg
      exact ih (ch :: cur) (by simp [hcur, Ne.symm hch]) seg hseg

/-- dropLast keeps only members of the original list. -/
theorem mem_of_mem_dropLast {α : Type} {l : List α} {x : α} (h : x ∈ l.dropLast) :
    x ∈ l :=
  (List.dropLast_sublist l).subset h

/-- Lines produced by pySplitlines contain no newline. -/
theorem pySplitlines_noNL (l : List Char) : ∀ seg ∈ pySplitlines l, ('\n' : Char) ∉ seg := by
  intro seg hseg
  have hmem : seg ∈ splitAux l [] := by
    unfold pySplitlines at hseg
    by_cases h : (splitAux l []).getLast? = some []
    · rw [if_pos h] at hseg
      exact mem_of_mem_dropLast hseg
    · rw [if_neg h] at hseg
      exact hseg
  exact splitAux_noNL l [] (by simp) seg hmem

/-- Characters of a stripped line come from the original line. -/
theorem stripLine_subset (l : List Char) : ∀ x ∈ stripLine l, x ∈ l := by
  intro x hx
  have hx1 : x ∈ rstripSet ['\n', ' '] l := (List.dropWhile_suffix _).subset hx
  have hx2 : x ∈ l.reverse.dropWhile (fun c => (['\n', ' '] : List Char).contains c) := by
    rw [rstripSet] at hx1
    exact List.mem_reverse.mp hx1
  have hx3 : x ∈ l.reverse := (List.dropWhile_suffix _).subset hx2
  exact List.mem_reverse.mp hx3

/-- A processed line is the stripped original, possibly with one
semicolon appended. -/
theorem ppStep_fst_cases (c : Bool) (l : List Char) :
    (ppStep c l).1 = stripLine l ∨ (ppStep c l).1 = stripLine l ++ [';'] := by
  cases hemp : (stripLine l).isEmpty with
  | true => left; simp [ppStep, hemp]
  | false =>
    simp only [ppStep, hemp, Bool.false_eq_true, if_false]
    repeat' first
      | exact Or.inl rfl
      | exact Or.inr rfl
      | split

/-- Processed lines contain no newline when the input lines do not. -/
theorem ppLines_noNL (c : Bool) (ls : List (List Char))
    (h : ∀ l ∈ ls, ('\n' : Char) ∉ l) :
    ∀ seg ∈ ppLines c ls, ('\n' : Char) ∉ seg := by
  induction ls generalizing c with
  | nil => intro seg hseg; simp [ppLines] at hseg
  | cons l rest ih =>
    intro seg hseg
    have e1 : ppLines c (l :: rest) = (ppStep c l).1 :: ppLines (ppStep c l).2 rest := rfl
    rw [e1, List.mem_cons] at hseg
    rcases hseg with rfl | hseg
    · have hstrip : ('\n' : Char) ∉ stripLine l :=
        fun hm => h l (by simp) (stripLine_subset l _ hm)
      rcases ppStep_fst_cases c l with hcase | hcase <;> rw [hcase]
      · exact hstrip
      · intro hm
        rcases List.mem_append.mp hm with hm2 | hm2
        · exact hstrip hm2
        · simp at hm2
    · exact ih (ppStep c l).2 (fun l2 h2 => h l2 (by simp [h2])) seg hseg

/-- Splitting a newline-free line followed by a newline yields the
line and the split of the remainder. -/
theorem splitAux_append_newline : ∀ (l : List Char), ('\n' : Char) ∉ l →
    ∀ (rest cur : List Char),
      splitAux (l ++ '\n' :: rest) cur = (cur.reverse ++ l) :: splitAux rest [] := by
  intro l
  induction l with
  | nil => intro _ rest cur; simp [splitAux]
  | cons a t ih =>
    intro h rest cur
    have ha : ¬(a = '\n') := fun hc => h (by simp [hc])
    rw [List.cons_append, splitAux, if_neg ha, ih (fun hm => h (by simp [hm])) rest (a :: cur)]
    simp

/-- Joining processed lines and re-splitting recovers them, with the
empty segment the final newline leaves. -/
theorem splitAux_joinNL : ∀ (out : List (List Char)), out ≠ [] →
    (∀ l ∈ out, ('\n' : Char) ∉ l) →
    splitAux (joinNL out ++ ['\n']) [] = out ++ [[]] := by
  intro out
  induction out with
  | nil => intro h; exact absurd rfl h
  | cons l rest ih =>
    intro _ hnn
    cases rest with
    | nil =>
      have hj : joinNL [l] = l := rfl
      rw [hj]
      have h1 := splitAux_append_newline l (hnn l (by simp)) [] []
      simpa [splitAux] using h1
    | cons m rest2 =>
      have hj : joinNL (l :: m :: rest2) = l ++ '\n' :: joinNL (m :: rest2) := rfl
      rw [hj, List.cons_append, List.append_assoc]
      rw [show ('\n' :: joinNL (m :: rest2)) ++ ['\n'] = '\n' :: (joinNL (m :: rest2) ++ ['\n'])
        from rfl]
      rw [splitAux_append_newline l (hnn l (by simp)) _ []]
      rw [ih (by simp) (fun l2 h2 => hnn l2 (by simp [h2]))]
      simp

/-- pySplitlines inverts the newline join of nonempty newline-free
line lists. -/
theorem pySplitlines_joinNL (out : List (List Char)) (hne : out ≠ [])
    (hnn : ∀ l ∈ out, ('\n' : Char) ∉ l) :
    pySplitlines (joinNL out ++ ['\n']) = out := by
  have h1 : pySplitlines (joinNL out ++ ['\n'])
      = if (splitAux (joinNL out ++ ['\n']) []).getLast? = some []
        then (splitAux (joinNL out ++ ['\n']) []).dropLast
        else splitAux (joinNL out ++ ['\n']) [] := rfl
  rw [h1, splitAux_joinNL out hne hnn, List.getLast?_concat]
  simp

/-- C8 amended: add_endings is idempotent on every input none of whose
lines begins, after stripping, with a reserved Minecraft command
keyword; such keyword lines instead gain one more semicolon per
run. -/
theorem add_endings_idempotent_no_keyword_lines (s : String)
    (hk : ∀ l ∈ pySplitlines s.data, startsKeyword (stripLine l) = false) :
    add_endings (add_endings s) = add_endings s := by
  by_cases hnil : pySplitlines s.data = []
  · have h1 : add_endings s = "\n" := by
      show (⟨joinNL (ppLines false (pySplitlines s.data)) ++ ['\n']⟩ : String) = "\n"
      rw [hnil]
      decide
    rw [h1]
    decide
  · have hnnl : ∀ l ∈ pySplitlines s.data, ('\n' : Char) ∉ l :=
      fun l hl => pySplitlines_noNL s.data l hl
    have hout_nn : ∀ l ∈ ppLines false (pySplitlines s.data), ('\n' : Char) ∉ l :=
      ppLines_noNL false _ hnnl
    have hout_ne : ppLines false (pySplitlines s.data) ≠ [] := by
      cases h : pySplitlines s.data with
      | nil => exact absurd h hnil
      | cons a t =>
        have e1 : ppLines false (a :: t)
            = (ppStep false a).1 :: ppLines (ppStep false a).2 t := rfl
        rw [e1]
        simp
    have hdata : (add_endings s).data
        = joinNL (ppLines false (pySplitlines s.data)) ++ ['\n'] := rfl
    show (⟨joinNL (ppLines false (pySplitlines (add_endings s).data)) ++ ['\n']⟩ : String)
        = add_endings s
    rw [hdata, pySplitlines_joinNL _ hout_ne hout_nn, ppLines_idem false _ hk]
    rfl

/-- Witness for the amended C8 at a keyword-free source. -/
theorem add_endings_idempotent_no_keyword_lines_witness :
    (∀ l ∈ pySplitlines ("x = 1").data, startsKeyword (stripLine l) = false) ∧
    add_endings (add_endings "x = 1") = add_endings "x = 1" := by
  have h : ∀ l ∈ pySplitlines ("x = 1").data, startsKeyword (stripLine l) = false := by
    decide
  exact ⟨h, add_endings_idempotent_no_keyword_lines "x = 1" h⟩

end MSL
